import Mathlib

/-!
Verification of the data-transfer and ledger-merge core of the
auragold-trading-analyzer repository: a shallow embedding of the JSON
normalization pipeline, the cross-ledger merge engine, the export
serializer and the filename sanitizer, together with theorems settling
the specification's claims about them.

JSON-decoded JavaScript values are modelled by the inductive `Json`;
JavaScript numbers are modelled as integers (all model numbers are
finite, matching the `Number.isFinite` guards in the source; none of
the verified properties perform non-integral arithmetic).  Objects are
association lists with the unique keys `JSON.parse` produces.
-/

inductive Json where
  | null : Json
  | bool : Bool → Json
  | num : Int → Json
  | str : String → Json
  | arr : List Json → Json
  | obj : List (String × Json) → Json

/-- JavaScript property access `o.k` on a plain parsed object: the value
stored under key `k`, or `none` for `undefined` when the key is absent. -/
def getField (o : List (String × Json)) (k : String) : Option Json :=
  (o.find? (fun p => p.1 == k)).map (fun p => p.2)

/-- `asString` from the source: returns the value unchanged only if it is
a string; no coercion from other types. -/
def asString : Json → Option String
  | .str s => some s
  | _ => none

/-- Model of the integer fragment of JavaScript `Number(s)`: optional
sign followed by decimal digits (after trimming, as `Number` itself
trims).  Numeric strings denoting non-integers lie outside the integer
number model and yield `none`. -/
def parseDigits : List Char → Option Nat
  | [] => none
  | l =>
    if l.all (fun c => c.isDigit) then
      some (l.foldl (fun a c => a * 10 + (c.toNat - 48)) 0)
    else none

def parseJsNumber (t : String) : Option Int :=
  match t.toList with
  | '-' :: rest => (parseDigits rest).map (fun n => -(n : Int))
  | '+' :: rest => (parseDigits rest).map (fun n => (n : Int))
  | l => (parseDigits l).map (fun n => (n : Int))

/-- `asNumber` from the source: a finite number is returned unchanged; a
string with non-empty trim is parsed and returned when the parse is
finite; everything else is absent. -/
def asNumber : Json → Option Int
  | .num n => some n
  | .str s => if s.trim = "" then none else parseJsNumber s.trim
  | _ => none

/-- `asRecordObject` from the source: a non-null, non-array object; arrays
and primitives are absent. -/
def asRecordObject : Json → Option (List (String × Json))
  | .obj o => some o
  | _ => none

structure TradeRecord where
  id : String
  grams : Int
  costPrice : Int
  sellingPrice : Int
  handlingFeeRate : Int
  actualProfit : Int
  desiredPrice : Int
  projectedProfit : Int
  profitMargin : Int
  timestamp : Int
deriving DecidableEq, Repr

structure Ledger where
  id : String
  name : String
  records : List TradeRecord
  createdAt : Int
deriving DecidableEq, Repr

/-- `normalizeTradeRecord` from the source: extract and coerce the ten
required fields; the `!id` guard rejects both an absent and an empty id,
and any absent numeric field rejects the whole record. -/
def normalizeTradeRecord (v : Json) : Option TradeRecord := do
  let o ← asRecordObject v
  let id ← (getField o "id").bind asString
  let grams ← (getField o "grams").bind asNumber
  let costPrice ← (getField o "costPrice").bind asNumber
  let sellingPrice ← (getField o "sellingPrice").bind asNumber
  let handlingFeeRate ← (getField o "handlingFeeRate").bind asNumber
  let actualProfit ← (getField o "actualProfit").bind asNumber
  let desiredPrice ← (getField o "desiredPrice").bind asNumber
  let projectedProfit ← (getField o "projectedProfit").bind asNumber
  let profitMargin ← (getField o "profitMargin").bind asNumber
  let timestamp ← (getField o "timestamp").bind asNumber
  if id = "" then none
  else
    some ⟨id, grams, costPrice, sellingPrice, handlingFeeRate, actualProfit,
          desiredPrice, projectedProfit, profitMargin, timestamp⟩

/-- Stable insertion step for the descending-timestamp record sort: the
inserted element goes after every already-placed element whose timestamp
is at least as large, so equal timestamps keep input order. -/
def insertRecDesc (x : TradeRecord) : List TradeRecord → List TradeRecord
  | [] => [x]
  | y :: ys => if x.timestamp < y.timestamp then y :: insertRecDesc x ys else x :: y :: ys

/-- Model of the stable `records.sort((a, b) => b.timestamp - a.timestamp)`
call in the source: the unique stable descending-by-timestamp permutation. -/
def sortRecordsDesc (l : List TradeRecord) : List TradeRecord :=
  l.foldr insertRecDesc []

/-- The record loop of `normalizeLedger`: fail the whole ledger on any bad
record, skip records whose id was already seen, append the rest in order. -/
def normRecords (seen : List String) (acc : List TradeRecord) :
    List Json → Option (List TradeRecord)
  | [] => some acc
  | item :: rest =>
    match normalizeTradeRecord item with
    | none => none
    | some r =>
      if seen.contains r.id then normRecords seen acc rest
      else normRecords (r.id :: seen) (acc ++ [r]) rest

/-- `normalizeLedger` from the source: require id, name, createdAt and a
records array (`!id || !name` also rejects empty id/name); normalize each
record fail-fast, dedupe by id keeping first occurrences, sort descending
by timestamp. -/
def normalizeLedger (v : Json) : Option Ledger := do
  let o ← asRecordObject v
  let id ← (getField o "id").bind asString
  let name ← (getField o "name").bind asString
  let createdAt ← (getField o "createdAt").bind asNumber
  let rawRecords ←
    match getField o "records" with
    | some (.arr rs) => some rs
    | _ => none
  if id = "" ∨ name = "" then none
  else do
    let recs ← normRecords [] [] rawRecords
    some ⟨id, name, sortRecordsDesc recs, createdAt⟩

/-- `JS Map.set` on an id-keyed, insertion-ordered ledger map: replace the
entry with the same id in place, or append a fresh entry at the end. -/
def mapSet : List Ledger → Ledger → List Ledger
  | [], l => [l]
  | x :: xs, l => if x.id = l.id then l :: xs else x :: mapSet xs l

/-- `JS Map.get` on the id-keyed ledger map. -/
def lookupById (m : List Ledger) (x : String) : Option Ledger :=
  m.find? (fun l => l.id == x)

/-- The shared record-level merge of the source (identical in
`dedupeLedgersById` and `mergeLedgers`): keep all existing records, append
incoming records whose id is not already present, re-sort descending. -/
def mergeRecords (existing incoming : List TradeRecord) : List TradeRecord :=
  sortRecordsDesc
    (existing ++ incoming.filter (fun r => !(existing.any (fun p => p.id == r.id))))

/-- Stable insertion step for the ascending-createdAt ledger sort. -/
def insertLedAsc (x : Ledger) : List Ledger → List Ledger
  | [] => [x]
  | y :: ys => if y.createdAt < x.createdAt then y :: insertLedAsc x ys else x :: y :: ys

/-- Model of the stable `.sort((a, b) => a.createdAt - b.createdAt)` call. -/
def sortLedgersAsc (l : List Ledger) : List Ledger :=
  l.foldr insertLedAsc []

/-- One iteration of the `dedupeLedgersById` loop: insert a fresh ledger,
or merge into the previous one taking the incoming name when non-empty
and the minimum createdAt. -/
def dedupeStep (acc : List Ledger) (l : Ledger) : List Ledger :=
  match lookupById acc l.id with
  | none => mapSet acc l
  | some prev =>
    mapSet acc
      ⟨prev.id, if l.name = "" then prev.name else l.name,
       mergeRecords prev.records l.records, min prev.createdAt l.createdAt⟩

/-- `dedupeLedgersById` from the source. -/
def dedupeLedgersById (ledgers : List Ledger) : List Ledger :=
  sortLedgersAsc (ledgers.foldl dedupeStep [])

/-- One iteration of the `mergeLedgers` loop in App.tsx: insert a fresh
incoming ledger, or merge records into the existing one keeping all of
the existing ledger's other fields (`{ ...existing, records }`). -/
def mergeStep (acc : List Ledger) (l : Ledger) : List Ledger :=
  match lookupById acc l.id with
  | none => mapSet acc l
  | some existing =>
    mapSet acc { existing with records := mergeRecords existing.records l.records }

/-- `mergeLedgers` from App.tsx: seed the map from the current ledgers,
fold the incoming ledgers through `mergeStep`, return the values sorted
ascending by createdAt. -/
def mergeLedgers (current incoming : List Ledger) : List Ledger :=
  sortLedgersAsc (incoming.foldl mergeStep (current.foldl mapSet []))

structure AllImportResult where
  ledgers : List Ledger
  activeLedgerId : Option String
  lang : Option String
  theme : Option String
deriving DecidableEq, Repr

/-- The envelope test of `normalizeAllImport`:
`obj.schema === "auragold.export" && obj.kind === "all"`. -/
def isAllEnvelope (o : List (String × Json)) : Bool :=
  (match getField o "schema" with
   | some (.str s) => s = "auragold.export"
   | _ => false) &&
  (match getField o "kind" with
   | some (.str s) => s = "all"
   | _ => false)

/-- The ledger loop of `normalizeAllImport`: any bad ledger aborts the
whole import. -/
def normLedgersLoop : List Json → List Ledger → Option (List Ledger)
  | [], acc => some acc
  | v :: vs, acc =>
    match normalizeLedger v with
    | none => none
    | some l => normLedgersLoop vs (acc ++ [l])

/-- `normalizeAllImport` from the source, including its unreachable bare
array branch: `asRecordObject` returns `none` for arrays, so an array
input returns `none` at the first guard and the `Array.isArray(input)`
branch below the envelope branch can never run. -/
def normalizeAllImport (input : Json) : Option AllImportResult :=
  match asRecordObject input with
  | none => none
  | some o =>
    if isAllEnvelope o then
      match (getField o "payload").bind asRecordObject with
      | none => none
      | some payload =>
        match getField payload "ledgers" with
        | some (.arr ledgersRaw) =>
          match normLedgersLoop ledgersRaw [] with
          | none => none
          | some ledgers =>
            let activeLedgerId := (getField payload "activeLedgerId").bind asString
            let lang := (getField payload "lang").bind asString
            let theme := (getField payload "theme").bind asString
            some
              { ledgers := dedupeLedgersById ledgers
                activeLedgerId := activeLedgerId
                lang := if lang = some "en" ∨ lang = some "zh" then lang else none
                theme := if theme = some "light" ∨ theme = some "dark" then theme else none }
        | _ => none
    else
      match input with
      | .arr items =>
        match normLedgersLoop items [] with
        | none => none
        | some ledgers =>
          some { ledgers := dedupeLedgersById ledgers
                 activeLedgerId := none, lang := none, theme := none }
      | _ => none

/-- Serialization of a trade record as `JSON.stringify` writes it from the
well-typed in-memory value. -/
def tradeRecordToJson (r : TradeRecord) : Json :=
  .obj [("id", .str r.id), ("grams", .num r.grams), ("costPrice", .num r.costPrice),
        ("sellingPrice", .num r.sellingPrice), ("handlingFeeRate", .num r.handlingFeeRate),
        ("actualProfit", .num r.actualProfit), ("desiredPrice", .num r.desiredPrice),
        ("projectedProfit", .num r.projectedProfit), ("profitMargin", .num r.profitMargin),
        ("timestamp", .num r.timestamp)]

def ledgerToJson (l : Ledger) : Json :=
  .obj [("id", .str l.id), ("name", .str l.name),
        ("records", .arr (l.records.map tradeRecordToJson)),
        ("createdAt", .num l.createdAt)]

/-- The "all data" export envelope built by `exportAllDataJson` in App.tsx
(the stringify/parse text round-trip is the identity at this level). -/
def exportAllEnvelope (ledgers : List Ledger)
    (activeLedgerId lang theme exportedAt : String) : Json :=
  .obj [("schema", .str "auragold.export"), ("version", .num 1), ("kind", .str "all"),
        ("exportedAt", .str exportedAt),
        ("payload", .obj [("ledgers", .arr (ledgers.map ledgerToJson)),
                          ("activeLedgerId", .str activeLedgerId),
                          ("lang", .str lang), ("theme", .str theme)])]

/-- The character class `[\\/:*?"<>|]` of the first regex in `safeFilename`. -/
def badFilenameChar (c : Char) : Bool :=
  c = '\\' || c = '/' || c = ':' || c = '*' || c = '?' || c = '"' ||
  c = '<' || c = '>' || c = '|'

/-- Global regex replacement of every maximal run of characters in class
`p` by the single character `r`, tracked by an "inside a run" flag. -/
def replaceRunsAux (p : Char → Bool) (r : Char) : Bool → List Char → List Char
  | _, [] => []
  | inRun, c :: cs =>
    if p c then
      if inRun then replaceRunsAux p r true cs
      else r :: replaceRunsAux p r true cs
    else c :: replaceRunsAux p r false cs

def replaceRuns (p : Char → Bool) (r : Char) (l : List Char) : List Char :=
  replaceRunsAux p r false l

/-- JavaScript `String.prototype.trim`: drop whitespace from both ends. -/
def trimChars (l : List Char) : List Char :=
  ((l.dropWhile Char.isWhitespace).reverse.dropWhile Char.isWhitespace).reverse

/-- `safeFilename` from the source: replace runs of forbidden characters
with `-`, replace whitespace runs with a single space, trim, take the
first 80 characters, and fall back to `"auragold"` when empty. -/
def safeFilename (name : String) : String :=
  let s :=
    (trimChars (replaceRuns Char.isWhitespace ' '
      (replaceRuns badFilenameChar '-' name.toList))).take 80
  if s = [] then "auragold" else String.mk s

/-- Declarative form of run replacement used on the specification side:
keep each character outside the class, emit `r` exactly for the first
character of each maximal run of the class (a class character whose
predecessor is absent or outside the class), drop the rest of the run. -/
def collapseRunsSpec (p : Char → Bool) (r : Char) (l : List Char) : List Char :=
  (l.zip (none :: l.map some)).filterMap fun cp =>
    if p cp.1 then
      if cp.2.elim true (fun d => !p d) then some r else none
    else some cp.1

/-- The claim's sanitizer as literally stated: *strip* (remove) the
forbidden characters, collapse whitespace runs, trim, truncate to 80,
default to `"auragold"` when empty. -/
def safeFilenameSpecStrip (name : String) : String :=
  let s :=
    (trimChars (collapseRunsSpec Char.isWhitespace ' '
      (name.toList.filter (fun c => !badFilenameChar c)))).take 80
  if s = [] then "auragold" else String.mk s

/-- The amended sanitizer specification: replace each maximal run of the
forbidden characters with a single hyphen, collapse whitespace runs to a
single space, trim, truncate to 80, default to `"auragold"` when empty. -/
def safeFilenameSpecAmended (name : String) : String :=
  let s :=
    (trimChars (collapseRunsSpec Char.isWhitespace ' '
      (collapseRunsSpec badFilenameChar '-' name.toList))).take 80
  if s = [] then "auragold" else String.mk s

/-- Observer for the first-occurrence dedup property: the first element of
the list that normalizes to a record with id `x`. -/
def firstWithId (x : String) : List Json → Option TradeRecord
  | [] => none
  | v :: vs =>
    match normalizeTradeRecord v with
    | some r => if r.id = x then some r else firstWithId x vs
    | none => firstWithId x vs

/-- An incoming ledger is covered by a ledger map when the map holds an
entry with its id whose records contain every incoming record id and are
sorted descending by timestamp; merging such a ledger again changes
nothing. -/
def coveredBy (l : Ledger) (m : List Ledger) : Prop :=
  ∃ ex, lookupById m l.id = some ex ∧
    (∀ r ∈ l.records, ∃ q ∈ ex.records, q.id = r.id) ∧
    ex.records.Pairwise (fun x y => y.timestamp ≤ x.timestamp)

/-! ## Basic lemmas -/

theorem bindChainNone {α β : Type} (x : Option α) (f : α → Option β)
    (h : ∀ a, f a = none) : (x >>= f) = none := by
  cases x <;> simp [h]

theorem normRecords_none_of_bad {rs : List Json}
    (h : ∃ v ∈ rs, normalizeTradeRecord v = none) :
    ∀ seen acc, normRecords seen acc rs = none := by
  induction rs with
  | nil => rcases h with ⟨v, hv, _⟩; cases hv
  | cons a tl ih =>
    intro seen acc
    rcases h with ⟨v, hv, hnone⟩
    rcases List.mem_cons.mp hv with rfl | hv'
    · simp [normRecords, hnone]
    · cases ha : normalizeTradeRecord a with
      | none => simp [normRecords, ha]
      | some r =>
        simp only [normRecords, ha]
        split
        · exact ih ⟨v, hv', hnone⟩ _ _
        · exact ih ⟨v, hv', hnone⟩ _ _

theorem normLedgersLoop_none_of_bad {ls : List Json}
    (h : ∃ v ∈ ls, normalizeLedger v = none) :
    ∀ acc, normLedgersLoop ls acc = none := by
  induction ls with
  | nil => rcases h with ⟨v, hv, _⟩; cases hv
  | cons a tl ih =>
    intro acc
    rcases h with ⟨v, hv, hnone⟩
    rcases List.mem_cons.mp hv with rfl | hv'
    · simp [normLedgersLoop, hnone]
    · cases ha : normalizeLedger a with
      | none => simp [normLedgersLoop, ha]
      | some l => simp only [normLedgersLoop, ha]; exact ih ⟨v, hv', hnone⟩ _

/-! ## C10 -/

/-- C10: empty strings are rejected at the public interface: a record
whose `id` field is the empty string is rejected by
`normalizeTradeRecord`, and a ledger whose `id` or `name` field is the
empty string is rejected by `normalizeLedger`. -/
theorem c10_empty_strings_rejected :
    (∀ o : List (String × Json), getField o "id" = some (.str "") →
      normalizeTradeRecord (.obj o) = none) ∧
    (∀ o : List (String × Json),
      getField o "id" = some (.str "") ∨ getField o "name" = some (.str "") →
      normalizeLedger (.obj o) = none) := by
  constructor
  · intro o hid
    unfold normalizeTradeRecord
    simp only [asRecordObject, Option.bind_eq_bind, Option.some_bind]
    rw [hid]
    simp only [asString, Option.bind_some, Option.bind_eq_bind, Option.some_bind]
    exact bindChainNone _ _ fun _ => bindChainNone _ _ fun _ => bindChainNone _ _ fun _ =>
      bindChainNone _ _ fun _ => bindChainNone _ _ fun _ => bindChainNone _ _ fun _ =>
      bindChainNone _ _ fun _ => bindChainNone _ _ fun _ => bindChainNone _ _ fun _ => by simp
  · intro o h
    unfold normalizeLedger
    simp only [asRecordObject, Option.bind_eq_bind, Option.some_bind]
    rcases h with hid | hname
    · rw [hid]
      simp only [asString, Option.bind_some, Option.bind_eq_bind, Option.some_bind]
      refine bindChainNone _ _ fun name => bindChainNone _ _ fun c => ?_
      split <;> simp
    · refine bindChainNone _ _ fun id => ?_
      rw [hname]
      simp only [asString, Option.bind_some, Option.bind_eq_bind, Option.some_bind]
      refine bindChainNone _ _ fun c => ?_
      split <;> simp

theorem c10_witness :
    getField [("id", Json.str ""), ("grams", Json.num 1)] "id" = some (.str "") ∧
    normalizeTradeRecord (.obj [("id", Json.str ""), ("grams", Json.num 1)]) = none ∧
    getField [("id", Json.str "a"), ("name", Json.str "")] "name" = some (.str "") ∧
    normalizeLedger (.obj [("id", Json.str "a"), ("name", Json.str "")]) = none :=
  ⟨rfl, c10_empty_strings_rejected.1 _ rfl, rfl,
   c10_empty_strings_rejected.2 _ (Or.inr rfl)⟩

/-! ## C4 -/

/-- C4: normalization is atomically fail-fast: a ledger whose records
array contains any element rejected by `normalizeTradeRecord` is rejected
whole by `normalizeLedger`, and an "all data" envelope whose ledgers
array contains any element rejected by `normalizeLedger` is rejected
whole by `normalizeAllImport`. -/
theorem c4_fail_fast :
    (∀ (o : List (String × Json)) (rs : List Json),
      getField o "records" = some (.arr rs) →
      (∃ v ∈ rs, normalizeTradeRecord v = none) →
      normalizeLedger (.obj o) = none) ∧
    (∀ (o payload : List (String × Json)) (ls : List Json),
      isAllEnvelope o = true →
      getField o "payload" = some (.obj payload) →
      getField payload "ledgers" = some (.arr ls) →
      (∃ v ∈ ls, normalizeLedger v = none) →
      normalizeAllImport (.obj o) = none) := by
  constructor
  · intro o rs hrec hbad
    unfold normalizeLedger
    simp only [asRecordObject, Option.bind_eq_bind, Option.some_bind]
    refine bindChainNone _ _ fun id => bindChainNone _ _ fun name =>
      bindChainNone _ _ fun c => ?_
    rw [hrec]
    simp only [Option.bind_eq_bind, Option.some_bind]
    split
    · rfl
    · rw [normRecords_none_of_bad hbad]
      rfl
  · intro o payload ls henv hpay hled hbad
    unfold normalizeAllImport
    simp only [asRecordObject, henv, if_true]
    rw [hpay]
    simp only [Option.bind_eq_bind, Option.some_bind]
    rw [hled]
    simp only [normLedgersLoop_none_of_bad hbad]

theorem c4_witness :
    (∃ v ∈ [Json.null], normalizeTradeRecord v = none) ∧
    normalizeLedger (.obj [("id", Json.str "l"), ("name", Json.str "N"),
      ("createdAt", Json.num 0), ("records", Json.arr [Json.null])]) = none ∧
    (∃ v ∈ [Json.num 7], normalizeLedger v = none) ∧
    normalizeAllImport (.obj [("schema", Json.str "auragold.export"),
      ("kind", Json.str "all"),
      ("payload", Json.obj [("ledgers", Json.arr [Json.num 7])])]) = none :=
  ⟨⟨Json.null, by simp, rfl⟩,
   c4_fail_fast.1 _ [Json.null] rfl ⟨Json.null, by simp, rfl⟩,
   ⟨Json.num 7, by simp, rfl⟩,
   c4_fail_fast.2 _ [("ledgers", Json.arr [Json.num 7])] [Json.num 7] rfl rfl rfl
     ⟨Json.num 7, by simp, rfl⟩⟩

/-! ## C1 -/

/-- C1 (code bug): a raw JSON array whose elements are valid
Ledger-shaped objects is nevertheless rejected by `normalizeAllImport`:
the initial `asRecordObject` guard returns absent for arrays and returns
early, so the legacy bare-array fallback branch is unreachable.  Each
element shown normalizes successfully on its own, yet the array import
yields absent instead of the two-element ledger set the spec promises. -/
theorem c1_bare_array_import_rejected :
    normalizeLedger (Json.obj [("id", .str "a"), ("name", .str "A"),
      ("createdAt", .num 0), ("records", .arr [])]) = some ⟨"a", "A", [], 0⟩ ∧
    normalizeLedger (Json.obj [("id", .str "b"), ("name", .str "B"),
      ("createdAt", .num 1), ("records", .arr [])]) = some ⟨"b", "B", [], 1⟩ ∧
    normalizeAllImport (Json.arr
      [Json.obj [("id", .str "a"), ("name", .str "A"),
        ("createdAt", .num 0), ("records", .arr [])],
       Json.obj [("id", .str "b"), ("name", .str "B"),
        ("createdAt", .num 1), ("records", .arr [])]]) = none := by
  refine ⟨rfl, rfl, rfl⟩

/-! ## Sorting lemmas -/

theorem insertRecDesc_perm (x : TradeRecord) (l : List TradeRecord) :
    (insertRecDesc x l).Perm (x :: l) := by
  induction l with
  | nil => exact List.Perm.refl _
  | cons y ys ih =>
    unfold insertRecDesc
    split
    · exact (ih.cons y).trans (List.Perm.swap x y ys)
    · exact List.Perm.refl _

theorem sortRecordsDesc_perm (l : List TradeRecord) : (sortRecordsDesc l).Perm l := by
  induction l with
  | nil => exact List.Perm.refl _
  | cons x xs ih => exact (insertRecDesc_perm x _).trans (ih.cons x)

theorem mem_sortRecordsDesc {r : TradeRecord} {l : List TradeRecord} :
    r ∈ sortRecordsDesc l ↔ r ∈ l :=
  (sortRecordsDesc_perm l).mem_iff

theorem insertRecDesc_sorted {x : TradeRecord} {l : List TradeRecord}
    (h : l.Pairwise (fun a b => b.timestamp ≤ a.timestamp)) :
    (insertRecDesc x l).Pairwise (fun a b => b.timestamp ≤ a.timestamp) := by
  induction l with
  | nil => simp [insertRecDesc]
  | cons y ys ih =>
    rcases List.pairwise_cons.mp h with ⟨hy, hys⟩
    unfold insertRecDesc
    split
    · rename_i hlt
      refine List.pairwise_cons.mpr ⟨?_, ih hys⟩
      intro b hb
      rcases List.mem_cons.mp ((insertRecDesc_perm x ys).mem_iff.mp hb) with rfl | hb'
      · exact le_of_lt hlt
      · exact hy b hb'
    · rename_i hge
      refine List.pairwise_cons.mpr ⟨?_, h⟩
      intro b hb
      rcases List.mem_cons.mp hb with rfl | hb'
      · exact not_lt.mp hge
      · exact le_trans (hy b hb') (not_lt.mp hge)

theorem sortRecordsDesc_sorted (l : List TradeRecord) :
    (sortRecordsDesc l).Pairwise (fun a b => b.timestamp ≤ a.timestamp) := by
  induction l with
  | nil => simp [sortRecordsDesc]
  | cons x xs ih => exact insertRecDesc_sorted ih

theorem sortRecordsDesc_eq_of_sorted {l : List TradeRecord}
    (h : l.Pairwise (fun a b => b.timestamp ≤ a.timestamp)) :
    sortRecordsDesc l = l := by
  induction l with
  | nil => rfl
  | cons x xs ih =>
    rcases List.pairwise_cons.mp h with ⟨hx, hxs⟩
    show insertRecDesc x (sortRecordsDesc xs) = x :: xs
    rw [ih hxs]
    cases xs with
    | nil => rfl
    | cons y ys =>
      unfold insertRecDesc
      rw [if_neg (not_lt.mpr (hx y (by simp)))]

theorem filter_insertRecDesc (x : TradeRecord) (l : List TradeRecord) (t : Int) :
    (insertRecDesc x l).filter (fun r => r.timestamp == t) =
      if x.timestamp = t then x :: l.filter (fun r => r.timestamp == t)
      else l.filter (fun r => r.timestamp == t) := by
  induction l with
  | nil =>
    by_cases hxt : x.timestamp = t <;> simp [insertRecDesc, List.filter_cons, hxt]
  | cons y ys ih =>
    unfold insertRecDesc
    split
    · rename_i hlt
      by_cases hxt : x.timestamp = t
      · have hyt : ¬ y.timestamp = t := by omega
        simp [List.filter_cons, hyt, hxt, ih]
      · by_cases hyt : y.timestamp = t <;> simp [List.filter_cons, hyt, hxt, ih]
    · by_cases hxt : x.timestamp = t <;>
        by_cases hyt : y.timestamp = t <;> simp [List.filter_cons, hxt, hyt]

theorem filter_sortRecordsDesc (l : List TradeRecord) (t : Int) :
    (sortRecordsDesc l).filter (fun r => r.timestamp == t) =
      l.filter (fun r => r.timestamp == t) := by
  induction l with
  | nil => rfl
  | cons x xs ih =>
    show (insertRecDesc x (sortRecordsDesc xs)).filter _ = _
    rw [filter_insertRecDesc]
    by_cases hxt : x.timestamp = t <;> simp [List.filter_cons, hxt, ih]

theorem insertLedAsc_perm (x : Ledger) (l : List Ledger) :
    (insertLedAsc x l).Perm (x :: l) := by
  induction l with
  | nil => exact List.Perm.refl _
  | cons y ys ih =>
    unfold insertLedAsc
    split
    · exact (ih.cons y).trans (List.Perm.swap x y ys)
    · exact List.Perm.refl _

theorem sortLedgersAsc_perm (l : List Ledger) : (sortLedgersAsc l).Perm l := by
  induction l with
  | nil => exact List.Perm.refl _
  | cons x xs ih => exact (insertLedAsc_perm x _).trans (ih.cons x)

theorem insertLedAsc_sorted {x : Ledger} {l : List Ledger}
    (h : l.Pairwise (fun a b => a.createdAt ≤ b.createdAt)) :
    (insertLedAsc x l).Pairwise (fun a b => a.createdAt ≤ b.createdAt) := by
  induction l with
  | nil => simp [insertLedAsc]
  | cons y ys ih =>
    rcases List.pairwise_cons.mp h with ⟨hy, hys⟩
    unfold insertLedAsc
    split
    · rename_i hlt
      refine List.pairwise_cons.mpr ⟨?_, ih hys⟩
      intro b hb
      rcases List.mem_cons.mp ((insertLedAsc_perm x ys).mem_iff.mp hb) with rfl | hb'
      · exact le_of_lt hlt
      · exact hy b hb'
    · rename_i hge
      refine List.pairwise_cons.mpr ⟨?_, h⟩
      intro b hb
      rcases List.mem_cons.mp hb with rfl | hb'
      · exact not_lt.mp hge
      · exact le_trans (not_lt.mp hge) (hy b hb')

theorem sortLedgersAsc_sorted (l : List Ledger) :
    (sortLedgersAsc l).Pairwise (fun a b => a.createdAt ≤ b.createdAt) := by
  induction l with
  | nil => simp [sortLedgersAsc]
  | cons x xs ih => exact insertLedAsc_sorted ih

theorem sortLedgersAsc_eq_of_sorted {l : List Ledger}
    (h : l.Pairwise (fun a b => a.createdAt ≤ b.createdAt)) :
    sortLedgersAsc l = l := by
  induction l with
  | nil => rfl
  | cons x xs ih =>
    rcases List.pairwise_cons.mp h with ⟨hx, hxs⟩
    show insertLedAsc x (sortLedgersAsc xs) = x :: xs
    rw [ih hxs]
    cases xs with
    | nil => rfl
    | cons y ys =>
      unfold insertLedAsc
      rw [if_neg (not_lt.mpr (hx y (by simp)))]

/-! ## Inversion of a successful ledger normalization -/

theorem normalizeLedger_obj_some {o : List (String × Json)} {l : Ledger}
    (h : normalizeLedger (.obj o) = some l) :
    ∃ id name c rs recs,
      (getField o "id").bind asString = some id ∧
      (getField o "name").bind asString = some name ∧
      (getField o "createdAt").bind asNumber = some c ∧
      getField o "records" = some (.arr rs) ∧
      normRecords [] [] rs = some recs ∧
      id ≠ "" ∧ name ≠ "" ∧
      l = ⟨id, name, sortRecordsDesc recs, c⟩ := by
  unfold normalizeLedger at h
  simp only [asRecordObject, Option.bind_eq_bind, Option.some_bind] at h
  cases hid : (getField o "id").bind asString with
  | none => rw [hid] at h; simp at h
  | some id =>
  rw [hid] at h
  simp only [Option.some_bind] at h
  cases hname : (getField o "name").bind asString with
  | none => rw [hname] at h; simp at h
  | some name =>
  rw [hname] at h
  simp only [Option.some_bind] at h
  cases hc : (getField o "createdAt").bind asNumber with
  | none => rw [hc] at h; simp at h
  | some c =>
  rw [hc] at h
  simp only [Option.some_bind] at h
  cases hrs : getField o "records" with
  | none => rw [hrs] at h; simp at h
  | some v =>
  rw [hrs] at h
  cases v with
  | arr rs =>
    simp only [] at h
    split at h
    · cases h
    · rename_i hcond
      push_neg at hcond
      cases hrec : normRecords [] [] rs with
      | none => rw [hrec] at h; cases h
      | some recs =>
        rw [hrec] at h
        simp only [Option.bind_eq_bind, Option.some_bind] at h
        exact ⟨id, name, c, rs, recs, rfl, rfl, rfl, rfl, hrec, hcond.1, hcond.2,
          (Option.some.inj h).symm⟩
  | null => simp at h
  | bool b => simp at h
  | num n => simp at h
  | str s => simp at h
  | obj oo => simp at h

theorem normRecords_sublist_acc {rs : List Json} :
    ∀ {seen acc out}, normRecords seen acc rs = some out → ∀ a ∈ acc, a ∈ out := by
  induction rs with
  | nil => intro seen acc out h a ha; cases h; exact ha
  | cons v vs ih =>
    intro seen acc out h a ha
    cases hv : normalizeTradeRecord v with
    | none => simp [normRecords, hv] at h
    | some r =>
      simp only [normRecords, hv] at h
      split at h
      · exact ih h a ha
      · exact ih h a (by simp [ha])

theorem normRecords_nodup {rs : List Json} :
    ∀ {seen acc out}, normRecords seen acc rs = some out →
      (acc.map TradeRecord.id).Nodup → (∀ a ∈ acc, a.id ∈ seen) →
      (out.map TradeRecord.id).Nodup := by
  induction rs with
  | nil => intro seen acc out h h1 _; cases h; exact h1
  | cons v vs ih =>
    intro seen acc out h h1 h2
    cases hv : normalizeTradeRecord v with
    | none => simp [normRecords, hv] at h
    | some r =>
      simp only [normRecords, hv] at h
      split at h
      · exact ih h h1 h2
      · rename_i hcont
        refine ih h ?_ ?_
        · simp only [List.map_append, List.map_cons, List.map_nil]
          rw [List.nodup_append]
          refine ⟨h1, by simp, ?_⟩
          intro x hx hx2
          simp only [List.mem_cons, List.not_mem_nil, or_false] at hx2
          subst hx2
          rcases List.mem_map.mp hx with ⟨a, ha, hid⟩
          exact hcont (List.elem_iff.mpr (hid ▸ h2 a ha))
        · intro a ha
          rcases List.mem_append.mp ha with ha' | ha'
          · exact List.mem_cons_of_mem _ (h2 a ha')
          · simp only [List.mem_singleton] at ha'
            subst ha'
            exact List.mem_cons_self _ _

theorem normRecords_covers {rs : List Json} :
    ∀ {seen acc out}, normRecords seen acc rs = some out →
      (∀ x ∈ seen, ∃ a ∈ acc, a.id = x) →
      ∀ v ∈ rs, ∀ rv, normalizeTradeRecord v = some rv → ∃ r ∈ out, r.id = rv.id := by
  induction rs with
  | nil => intro seen acc out _ _ v hv; simp at hv
  | cons w ws ih =>
    intro seen acc out h hseen v hv rv hrv
    cases hw : normalizeTradeRecord w with
    | none => simp [normRecords, hw] at h
    | some r =>
      simp only [normRecords, hw] at h
      rcases List.mem_cons.mp hv with rfl | hv'
      · rw [hw] at hrv
        obtain rfl : r = rv := Option.some.inj hrv
        split at h
        · rename_i hcont
          rcases hseen _ (List.elem_iff.mp hcont) with ⟨a, ha, hid⟩
          exact ⟨a, normRecords_sublist_acc h a ha, hid⟩
        · exact ⟨r, normRecords_sublist_acc h r (by simp), rfl⟩
      · split at h
        · exact ih h hseen v hv' rv hrv
        · refine ih h ?_ v hv' rv hrv
          intro x hx
          rcases List.mem_cons.mp hx with rfl | hx'
          · exact ⟨r, by simp, rfl⟩
          · rcases hseen x hx' with ⟨a, ha, hid⟩
            exact ⟨a, by simp [ha], hid⟩

theorem normRecords_first {rs : List Json} :
    ∀ {seen acc out}, normRecords seen acc rs = some out →
      ∀ r ∈ out, r ∈ acc ∨ (r.id ∉ seen ∧ firstWithId r.id rs = some r) := by
  induction rs with
  | nil => intro seen acc out h r hr; cases h; exact Or.inl hr
  | cons v vs ih =>
    intro seen acc out h r hr
    cases hv : normalizeTradeRecord v with
    | none => simp [normRecords, hv] at h
    | some rv =>
      simp only [normRecords, hv] at h
      split at h
      · rename_i hcont
        rcases ih h r hr with hacc | ⟨hnotseen, hfirst⟩
        · exact Or.inl hacc
        · refine Or.inr ⟨hnotseen, ?_⟩
          simp only [firstWithId, hv]
          rw [if_neg ?_]
          · exact hfirst
          · intro e
            exact hnotseen (e ▸ List.elem_iff.mp hcont)
      · rename_i hcont
        rcases ih h r hr with hacc | ⟨hnotseen, hfirst⟩
        · rcases List.mem_append.mp hacc with hacc' | hsing
          · exact Or.inl hacc'
          · simp only [List.mem_singleton] at hsing
            subst hsing
            refine Or.inr ⟨fun hmem => hcont (List.elem_iff.mpr hmem), ?_⟩
            simp [firstWithId, hv]
        · refine Or.inr ⟨fun hmem => hnotseen (List.mem_cons_of_mem _ hmem), ?_⟩
          simp only [firstWithId, hv]
          rw [if_neg ?_]
          · exact hfirst
          · intro e
            refine hnotseen ?_
            rw [← e]
            exact List.mem_cons_self _ _

/-- C7: intra-ledger record deduplication keeps the first occurrence: in
a ledger accepted by `normalizeLedger`, record ids are unique, every
(successfully normalizing) input element is represented by a record with
its id, and each resulting record equals the first input occurrence that
normalizes to its id. -/
theorem c7_dedup_keeps_first (o : List (String × Json)) (l : Ledger) (rs : List Json)
    (h : normalizeLedger (.obj o) = some l)
    (hrs : getField o "records" = some (.arr rs)) :
    (l.records.map TradeRecord.id).Nodup ∧
    (∀ v ∈ rs, ∀ rv, normalizeTradeRecord v = some rv →
      ∃ r ∈ l.records, r.id = rv.id) ∧
    (∀ r ∈ l.records, firstWithId r.id rs = some r) := by
  obtain ⟨id, name, c, rs', recs, _, _, _, hrs', hrec, _, _, rfl⟩ :=
    normalizeLedger_obj_some h
  rw [hrs'] at hrs
  obtain rfl : rs' = rs := Json.arr.inj (Option.some.inj hrs)
  refine ⟨?_, ?_, ?_⟩
  · have hnd := normRecords_nodup hrec (by simp) (by simp)
    exact (((sortRecordsDesc_perm recs).map TradeRecord.id).nodup_iff).mpr hnd
  · intro v hv rv hrv
    rcases normRecords_covers hrec (by simp) v hv rv hrv with ⟨r, hr, hrid⟩
    exact ⟨r, mem_sortRecordsDesc.mpr hr, hrid⟩
  · intro r hr
    rcases normRecords_first hrec r (mem_sortRecordsDesc.mp hr) with habs | ⟨_, hfirst⟩
    · simp at habs
    · exact hfirst

/-- C8: the records of a ledger accepted by `normalizeLedger` are sorted
by timestamp in descending order, and records with equal timestamps keep
their relative order from the deduplicated input sequence (classic
stability: filtering at any fixed timestamp is unchanged by the sort). -/
theorem c8_sorted_desc_stable (o : List (String × Json)) (l : Ledger) (rs : List Json)
    (ded : List TradeRecord)
    (h : normalizeLedger (.obj o) = some l)
    (hrs : getField o "records" = some (.arr rs))
    (hded : normRecords [] [] rs = some ded) :
    l.records.Pairwise (fun a b => b.timestamp ≤ a.timestamp) ∧
    ∀ t : Int, l.records.filter (fun r => r.timestamp == t) =
      ded.filter (fun r => r.timestamp == t) := by
  obtain ⟨id, name, c, rs', recs, _, _, _, hrs', hrec, _, _, rfl⟩ :=
    normalizeLedger_obj_some h
  rw [hrs'] at hrs
  obtain rfl : rs' = rs := Json.arr.inj (Option.some.inj hrs)
  rw [hrec] at hded
  obtain rfl : recs = ded := Option.some.inj hded
  exact ⟨sortRecordsDesc_sorted _, fun t => filter_sortRecordsDesc _ t⟩

theorem c7_witness :
    normalizeLedger (Json.obj [("id", .str "a"), ("name", .str "A"),
      ("createdAt", .num 0), ("records", .arr
        [tradeRecordToJson ⟨"r", 1, 2, 3, 4, 5, 6, 7, 8, 100⟩,
         tradeRecordToJson ⟨"r", 9, 9, 9, 9, 9, 9, 9, 9, 200⟩])]) =
      some ⟨"a", "A", [⟨"r", 1, 2, 3, 4, 5, 6, 7, 8, 100⟩], 0⟩ ∧
    getField [("id", .str "a"), ("name", .str "A"),
      ("createdAt", .num 0), ("records", .arr
        [tradeRecordToJson ⟨"r", 1, 2, 3, 4, 5, 6, 7, 8, 100⟩,
         tradeRecordToJson ⟨"r", 9, 9, 9, 9, 9, 9, 9, 9, 200⟩])] "records" =
      some (.arr [tradeRecordToJson ⟨"r", 1, 2, 3, 4, 5, 6, 7, 8, 100⟩,
                  tradeRecordToJson ⟨"r", 9, 9, 9, 9, 9, 9, 9, 9, 200⟩]) ∧
    (((⟨"a", "A", [⟨"r", 1, 2, 3, 4, 5, 6, 7, 8, 100⟩], 0⟩ : Ledger).records.map
        TradeRecord.id).Nodup ∧
     (∀ v ∈ [tradeRecordToJson ⟨"r", 1, 2, 3, 4, 5, 6, 7, 8, 100⟩,
             tradeRecordToJson ⟨"r", 9, 9, 9, 9, 9, 9, 9, 9, 200⟩],
        ∀ rv, normalizeTradeRecord v = some rv →
        ∃ r ∈ (⟨"a", "A", [⟨"r", 1, 2, 3, 4, 5, 6, 7, 8, 100⟩], 0⟩ : Ledger).records,
          r.id = rv.id) ∧
     (∀ r ∈ (⟨"a", "A", [⟨"r", 1, 2, 3, 4, 5, 6, 7, 8, 100⟩], 0⟩ : Ledger).records,
        firstWithId r.id
          [tradeRecordToJson ⟨"r", 1, 2, 3, 4, 5, 6, 7, 8, 100⟩,
           tradeRecordToJson ⟨"r", 9, 9, 9, 9, 9, 9, 9, 9, 200⟩] = some r)) :=
  ⟨rfl, rfl, c7_dedup_keeps_first [("id", .str "a"), ("name", .str "A"),
    ("createdAt", .num 0), ("records", .arr
      [tradeRecordToJson ⟨"r", 1, 2, 3, 4, 5, 6, 7, 8, 100⟩,
       tradeRecordToJson ⟨"r", 9, 9, 9, 9, 9, 9, 9, 9, 200⟩])] _ _ rfl rfl⟩

theorem c8_witness :
    normalizeLedger (Json.obj [("id", .str "a"), ("name", .str "A"),
      ("createdAt", .num 0), ("records", .arr
        [tradeRecordToJson ⟨"x", 1, 1, 1, 1, 1, 1, 1, 1, 100⟩,
         tradeRecordToJson ⟨"y", 2, 2, 2, 2, 2, 2, 2, 2, 100⟩,
         tradeRecordToJson ⟨"z", 3, 3, 3, 3, 3, 3, 3, 3, 300⟩])]) =
      some ⟨"a", "A", [⟨"z", 3, 3, 3, 3, 3, 3, 3, 3, 300⟩,
                       ⟨"x", 1, 1, 1, 1, 1, 1, 1, 1, 100⟩,
                       ⟨"y", 2, 2, 2, 2, 2, 2, 2, 2, 100⟩], 0⟩ ∧
    getField [("id", .str "a"), ("name", .str "A"),
      ("createdAt", .num 0), ("records", .arr
        [tradeRecordToJson ⟨"x", 1, 1, 1, 1, 1, 1, 1, 1, 100⟩,
         tradeRecordToJson ⟨"y", 2, 2, 2, 2, 2, 2, 2, 2, 100⟩,
         tradeRecordToJson ⟨"z", 3, 3, 3, 3, 3, 3, 3, 3, 300⟩])] "records" =
      some (.arr [tradeRecordToJson ⟨"x", 1, 1, 1, 1, 1, 1, 1, 1, 100⟩,
                  tradeRecordToJson ⟨"y", 2, 2, 2, 2, 2, 2, 2, 2, 100⟩,
                  tradeRecordToJson ⟨"z", 3, 3, 3, 3, 3, 3, 3, 3, 300⟩]) ∧
    normRecords [] []
      [tradeRecordToJson ⟨"x", 1, 1, 1, 1, 1, 1, 1, 1, 100⟩,
       tradeRecordToJson ⟨"y", 2, 2, 2, 2, 2, 2, 2, 2, 100⟩,
       tradeRecordToJson ⟨"z", 3, 3, 3, 3, 3, 3, 3, 3, 300⟩] =
      some [⟨"x", 1, 1, 1, 1, 1, 1, 1, 1, 100⟩,
            ⟨"y", 2, 2, 2, 2, 2, 2, 2, 2, 100⟩,
            ⟨"z", 3, 3, 3, 3, 3, 3, 3, 3, 300⟩] ∧
    (([⟨"z", 3, 3, 3, 3, 3, 3, 3, 3, 300⟩,
       ⟨"x", 1, 1, 1, 1, 1, 1, 1, 1, 100⟩,
       ⟨"y", 2, 2, 2, 2, 2, 2, 2, 2, 100⟩] : List TradeRecord).Pairwise
        (fun a b => b.timestamp ≤ a.timestamp) ∧
     ∀ t : Int,
       ([⟨"z", 3, 3, 3, 3, 3, 3, 3, 3, 300⟩,
         ⟨"x", 1, 1, 1, 1, 1, 1, 1, 1, 100⟩,
         ⟨"y", 2, 2, 2, 2, 2, 2, 2, 2, 100⟩] : List TradeRecord).filter
          (fun r => r.timestamp == t) =
       ([⟨"x", 1, 1, 1, 1, 1, 1, 1, 1, 100⟩,
         ⟨"y", 2, 2, 2, 2, 2, 2, 2, 2, 100⟩,
         ⟨"z", 3, 3, 3, 3, 3, 3, 3, 3, 300⟩] : List TradeRecord).filter
          (fun r => r.timestamp == t)) :=
  ⟨rfl, rfl, rfl, c8_sorted_desc_stable [("id", .str "a"), ("name", .str "A"),
    ("createdAt", .num 0), ("records", .arr
      [tradeRecordToJson ⟨"x", 1, 1, 1, 1, 1, 1, 1, 1, 100⟩,
       tradeRecordToJson ⟨"y", 2, 2, 2, 2, 2, 2, 2, 2, 100⟩,
       tradeRecordToJson ⟨"z", 3, 3, 3, 3, 3, 3, 3, 3, 300⟩])] _ _ _ rfl rfl rfl⟩

/-! ## Ledger map lemmas -/

theorem lookupById_cons (a : Ledger) (as : List Ledger) (x : String) :
    lookupById (a :: as) x = if a.id = x then some a else lookupById as x := by
  by_cases h : a.id = x <;> simp [lookupById, List.find?_cons, h]

theorem lookupById_eq_some {m : List Ledger} {x : String} {ex : Ledger}
    (h : lookupById m x = some ex) : ex ∈ m ∧ ex.id = x := by
  unfold lookupById at h
  exact ⟨List.mem_of_find?_eq_some h, by simpa using List.find?_some h⟩

theorem lookupById_eq_none {m : List Ledger} {x : String} :
    lookupById m x = none ↔ ∀ l ∈ m, l.id ≠ x := by
  unfold lookupById
  simp [List.find?_eq_none]

theorem lookupById_of_nodup_mem {m : List Ledger}
    (hnd : (m.map Ledger.id).Nodup) {l : Ledger} (hl : l ∈ m) :
    lookupById m l.id = some l := by
  induction m with
  | nil => cases hl
  | cons a as ih =>
    rw [lookupById_cons]
    rw [List.map_cons] at hnd
    have hnd' := List.nodup_cons.mp hnd
    rcases List.mem_cons.mp hl with rfl | hl'
    · simp
    · have ha : a.id ≠ l.id := by
        intro e
        exact hnd'.1 (e ▸ List.mem_map.mpr ⟨l, hl', rfl⟩)
      rw [if_neg ha]
      exact ih hnd'.2 hl'

theorem eq_of_mem_nodup_id {m : List Ledger} (hnd : (m.map Ledger.id).Nodup)
    {a b : Ledger} (ha : a ∈ m) (hb : b ∈ m) (hid : a.id = b.id) : a = b := by
  have h1 := lookupById_of_nodup_mem hnd ha
  have h2 := lookupById_of_nodup_mem hnd hb
  rw [hid] at h1
  exact Option.some.inj (h1.symm.trans h2)

theorem mapSet_self {m : List Ledger} {ex : Ledger}
    (h : lookupById m ex.id = some ex) : mapSet m ex = m := by
  induction m with
  | nil => cases h
  | cons a as ih =>
    rw [lookupById_cons] at h
    unfold mapSet
    by_cases ha : a.id = ex.id
    · rw [if_pos ha] at h
      rw [if_pos ha]
      obtain rfl : a = ex := Option.some.inj h
      rfl
    · rw [if_neg ha] at h
      rw [if_neg ha, ih h]

theorem mapSet_append {m : List Ledger} {l : Ledger}
    (h : lookupById m l.id = none) : mapSet m l = m ++ [l] := by
  induction m with
  | nil => rfl
  | cons a as ih =>
    rw [lookupById_cons] at h
    by_cases ha : a.id = l.id
    · rw [if_pos ha] at h; cases h
    · rw [if_neg ha] at h
      unfold mapSet
      rw [if_neg ha, ih h]
      rfl

theorem mapSet_map_id_of_present {m : List Ledger} {l : Ledger} {ex : Ledger}
    (h : lookupById m l.id = some ex) :
    (mapSet m l).map Ledger.id = m.map Ledger.id := by
  induction m with
  | nil => cases h
  | cons a as ih =>
    rw [lookupById_cons] at h
    unfold mapSet
    by_cases ha : a.id = l.id
    · rw [if_pos ha]
      simp [ha]
    · rw [if_neg ha] at h
      rw [if_neg ha]
      simp [ih h]

theorem mapSet_nodup {m : List Ledger} (l : Ledger)
    (h : (m.map Ledger.id).Nodup) : ((mapSet m l).map Ledger.id).Nodup := by
  cases hl : lookupById m l.id with
  | none =>
    rw [mapSet_append hl]
    simp only [List.map_append, List.map_cons, List.map_nil]
    rw [List.nodup_append]
    refine ⟨h, by simp, ?_⟩
    intro x hx hx2
    simp only [List.mem_cons, List.not_mem_nil, or_false] at hx2
    subst hx2
    rcases List.mem_map.mp hx with ⟨a, ha, hid⟩
    exact lookupById_eq_none.mp hl a ha hid
  | some ex => rw [mapSet_map_id_of_present hl]; exact h

theorem mem_mapSet_of_ne {m : List Ledger} {l x : Ledger}
    (hx : x ∈ m) (hne : x.id ≠ l.id) : x ∈ mapSet m l := by
  induction m with
  | nil => cases hx
  | cons a as ih =>
    unfold mapSet
    rcases List.mem_cons.mp hx with rfl | hx'
    · rw [if_neg hne]
      exact List.mem_cons_self _ _
    · by_cases ha : a.id = l.id
      · rw [if_pos ha]; exact List.mem_cons_of_mem _ hx'
      · rw [if_neg ha]; exact List.mem_cons_of_mem _ (ih hx')

theorem mem_mapSet_of_present {m : List Ledger} {l : Ledger}
    (h : lookupById m l.id ≠ none) : l ∈ mapSet m l := by
  induction m with
  | nil => exact absurd rfl h
  | cons a as ih =>
    unfold mapSet
    by_cases ha : a.id = l.id
    · rw [if_pos ha]; exact List.mem_cons_self _ _
    · rw [if_neg ha]
      refine List.mem_cons_of_mem _ (ih ?_)
      rw [lookupById_cons, if_neg ha] at h
      exact h

theorem foldl_mapSet_eq_aux (m : List Ledger) :
    ∀ acc, ((acc ++ m).map Ledger.id).Nodup → m.foldl mapSet acc = acc ++ m := by
  induction m with
  | nil => intro acc _; simp
  | cons l ls ih =>
    intro acc hnd
    have hl : lookupById acc l.id = none := by
      rw [lookupById_eq_none]
      intro a ha hid
      have h2 : l.id ∈ (l :: ls).map Ledger.id := by simp
      have := (List.nodup_append.mp (by simpa using hnd)).2.2
      exact this (hid ▸ List.mem_map.mpr ⟨a, ha, rfl⟩) h2
    show ls.foldl mapSet (mapSet acc l) = acc ++ l :: ls
    rw [mapSet_append hl]
    have : ((acc ++ [l]) ++ ls).map Ledger.id = ((acc ++ l :: ls)).map Ledger.id := by simp
    rw [ih (acc ++ [l]) (by rw [this]; exact hnd)]
    simp

theorem foldl_mapSet_eq {m : List Ledger} (hnd : (m.map Ledger.id).Nodup) :
    m.foldl mapSet [] = m := by
  simpa using foldl_mapSet_eq_aux m [] (by simpa using hnd)

theorem foldl_mapSet_nodup (m : List Ledger) :
    ∀ acc, (acc.map Ledger.id).Nodup → ((m.foldl mapSet acc).map Ledger.id).Nodup := by
  induction m with
  | nil => intro acc h; exact h
  | cons l ls ih => intro acc h; exact ih _ (mapSet_nodup l h)

/-! ## Record-merge lemmas -/

theorem mem_mergeRecords_left {a b : List TradeRecord} {r : TradeRecord}
    (h : r ∈ a) : r ∈ mergeRecords a b :=
  mem_sortRecordsDesc.mpr (List.mem_append_left _ h)

theorem mergeRecords_covers_right {a b : List TradeRecord} :
    ∀ r ∈ b, ∃ q ∈ mergeRecords a b, q.id = r.id := by
  intro r hr
  by_cases hin : a.any (fun p => p.id == r.id) = true
  · rcases List.any_eq_true.mp hin with ⟨q, hq, hqid⟩
    exact ⟨q, mem_mergeRecords_left hq, by simpa using hqid⟩
  · refine ⟨r, mem_sortRecordsDesc.mpr (List.mem_append_right _ ?_), rfl⟩
    refine List.mem_filter.mpr ⟨hr, ?_⟩
    simp only [Bool.not_eq_true] at hin
    simp [hin]

/-! ## Merge step lemmas -/

theorem mergeStep_nodup {acc : List Ledger} (l : Ledger)
    (h : (acc.map Ledger.id).Nodup) : ((mergeStep acc l).map Ledger.id).Nodup := by
  unfold mergeStep
  cases lookupById acc l.id <;> exact mapSet_nodup _ h

theorem foldl_mergeStep_nodup (i : List Ledger) :
    ∀ acc, (acc.map Ledger.id).Nodup →
      ((i.foldl mergeStep acc).map Ledger.id).Nodup := by
  induction i with
  | nil => intro acc h; exact h
  | cons l ls ih => intro acc h; exact ih _ (mergeStep_nodup l h)

theorem foldl_mergeStep_keeps (i : List Ledger) :
    ∀ acc, (acc.map Ledger.id).Nodup →
    ∀ x ∈ acc,
    ∃ lm ∈ i.foldl mergeStep acc, lm.id = x.id ∧ ∀ r ∈ x.records, r ∈ lm.records := by
  induction i with
  | nil => intro acc _ x hx; exact ⟨x, hx, rfl, fun _ hr => hr⟩
  | cons l ls ih =>
    intro acc hnd x hx
    have hstep : ∃ y ∈ mergeStep acc l, y.id = x.id ∧ ∀ r ∈ x.records, r ∈ y.records := by
      unfold mergeStep
      cases hl : lookupById acc l.id with
      | none =>
        exact ⟨x, mem_mapSet_of_ne hx (lookupById_eq_none.mp hl x hx), rfl,
          fun _ hr => hr⟩
      | some ex =>
        rcases lookupById_eq_some hl with ⟨hexm, hexid⟩
        by_cases hxl : x.id = l.id
        · obtain rfl : ex = x := eq_of_mem_nodup_id hnd hexm hx (hexid.trans hxl.symm)
          refine ⟨{ex with records := mergeRecords ex.records l.records}, ?_, rfl, ?_⟩
          · apply mem_mapSet_of_present
            show lookupById acc ex.id ≠ none
            rw [hexid, hl]
            simp
          · intro r hr
            exact mem_mergeRecords_left hr
        · refine ⟨x, mem_mapSet_of_ne hx ?_, rfl, fun _ hr => hr⟩
          show x.id ≠ ex.id
          rw [hexid]
          exact hxl
    rcases hstep with ⟨y, hy, hyid, hyrec⟩
    rcases ih (mergeStep acc l) (mergeStep_nodup l hnd) y hy with ⟨lm, hlm, hlmid, hlmrec⟩
    exact ⟨lm, hlm, hlmid.trans hyid, fun r hr => hlmrec r (hyrec r hr)⟩

/-! ## C6 -/

/-- C6: the merge never removes records: for ledger sets with unique
ledger ids on the existing side (the documented invariant of the
application's ledger collection), every record of an existing ledger is
still a member of the corresponding ledger of `mergeLedgers existing
incoming`; the merge only adds records. -/
theorem c6_merge_never_removes_records (e i : List Ledger)
    (hnd : (e.map Ledger.id).Nodup) :
    ∀ le ∈ e, ∃ lm ∈ mergeLedgers e i,
      lm.id = le.id ∧ ∀ r ∈ le.records, r ∈ lm.records := by
  intro le hle
  unfold mergeLedgers
  rw [foldl_mapSet_eq hnd]
  rcases foldl_mergeStep_keeps i e hnd le hle with ⟨lm, hlm, hid, hrec⟩
  exact ⟨lm, (sortLedgersAsc_perm _).mem_iff.mpr hlm, hid, hrec⟩

theorem c6_witness :
    (([⟨"L1", "A", [⟨"r1", 1, 1, 1, 1, 1, 1, 1, 1, 10⟩], 1000⟩] : List Ledger).map
      Ledger.id).Nodup ∧
    (⟨"L1", "A", [⟨"r1", 1, 1, 1, 1, 1, 1, 1, 1, 10⟩], 1000⟩ : Ledger) ∈
      ([⟨"L1", "A", [⟨"r1", 1, 1, 1, 1, 1, 1, 1, 1, 10⟩], 1000⟩] : List Ledger) ∧
    ∃ lm ∈ mergeLedgers
        [⟨"L1", "A", [⟨"r1", 1, 1, 1, 1, 1, 1, 1, 1, 10⟩], 1000⟩]
        [⟨"L1", "B", [⟨"r2", 2, 2, 2, 2, 2, 2, 2, 2, 20⟩], 500⟩],
      lm.id = "L1" ∧
      ∀ r ∈ (⟨"L1", "A", [⟨"r1", 1, 1, 1, 1, 1, 1, 1, 1, 10⟩], 1000⟩ : Ledger).records,
        r ∈ lm.records :=
  ⟨by decide, by decide,
   c6_merge_never_removes_records
     [⟨"L1", "A", [⟨"r1", 1, 1, 1, 1, 1, 1, 1, 1, 10⟩], 1000⟩]
     [⟨"L1", "B", [⟨"r2", 2, 2, 2, 2, 2, 2, 2, 2, 20⟩], 500⟩]
     (by decide) ⟨"L1", "A", [⟨"r1", 1, 1, 1, 1, 1, 1, 1, 1, 10⟩], 1000⟩ (by decide)⟩

/-! ## C2 -/

/-- C2 (counterexample): when `mergeLedgers` in App.tsx merges an import
against the application's current ledger set, the merged ledger keeps the
*existing* ledger's name and createdAt (`{ ...existing, records }`): with
existing name "A"/createdAt 1000 and incoming name "B"/createdAt 500, the
result keeps ("A", 1000), not the claimed incoming name "B" and minimum
createdAt 500. -/
theorem c2_merge_keeps_existing_fields_cex :
    mergeLedgers [⟨"L1", "A", [], 1000⟩] [⟨"L1", "B", [], 500⟩] =
      [⟨"L1", "A", [], 1000⟩] ∧
    ("A", (1000 : Int)) ≠ ("B", (500 : Int)) ∧ (500 : Int) = min 1000 500 := by
  refine ⟨by decide, by decide, by decide⟩

/-- C2 (amended): the claimed conflict resolution (incoming name when
non-empty, otherwise existing; createdAt the minimum of the two) holds for
the intra-file ledger dedup `dedupeLedgersById`; the application-state
merge `mergeLedgers` instead keeps the existing ledger's name and
createdAt unchanged while still merging the records by id. -/
theorem c2_merge_conflict_resolution_amended (a b : Ledger) (h : a.id = b.id) :
    dedupeLedgersById [a, b] =
      [⟨a.id, if b.name = "" then a.name else b.name,
        mergeRecords a.records b.records, min a.createdAt b.createdAt⟩] ∧
    mergeLedgers [a] [b] =
      [⟨a.id, a.name, mergeRecords a.records b.records, a.createdAt⟩] := by
  constructor
  · show sortLedgersAsc (dedupeStep (dedupeStep [] a) b) = _
    have e1 : dedupeStep [] a = [a] := rfl
    rw [e1]
    unfold dedupeStep
    rw [lookupById_cons, if_pos h]
    show sortLedgersAsc (mapSet [a] _) = _
    unfold mapSet
    simp [sortLedgersAsc, insertLedAsc]
  · show sortLedgersAsc (mergeStep (mapSet [] a) b) = _
    have e1 : mapSet [] a = [a] := rfl
    rw [e1]
    unfold mergeStep
    rw [lookupById_cons, if_pos h]
    show sortLedgersAsc (mapSet [a] _) = _
    unfold mapSet
    simp [sortLedgersAsc, insertLedAsc]

theorem c2_witness :
    ((⟨"L1", "A", [], 1000⟩ : Ledger).id = (⟨"L1", "B", [], 500⟩ : Ledger).id) ∧
    dedupeLedgersById [⟨"L1", "A", [], 1000⟩, ⟨"L1", "B", [], 500⟩] =
      [⟨"L1", "B", [], 500⟩] ∧
    mergeLedgers [⟨"L1", "A", [], 1000⟩] [⟨"L1", "B", [], 500⟩] =
      [⟨"L1", "A", [], 1000⟩] := by
  have h := c2_merge_conflict_resolution_amended ⟨"L1", "A", [], 1000⟩
    ⟨"L1", "B", [], 500⟩ rfl
  exact ⟨rfl, h.1.trans (by decide), h.2.trans (by decide)⟩

/-! ## C3 machinery -/

theorem lookupById_mapSet (m : List Ledger) (l : Ledger) (x : String) :
    lookupById (mapSet m l) x = if l.id = x then some l else lookupById m x := by
  induction m with
  | nil =>
    show lookupById [l] x = _
    rw [lookupById_cons]
  | cons a as ih =>
    unfold mapSet
    by_cases hal : a.id = l.id
    · rw [if_pos hal, lookupById_cons, lookupById_cons]
      by_cases hlx : l.id = x
      · simp [hlx]
      · have hax : ¬ a.id = x := by rw [hal]; exact hlx
        simp [hlx, hax]
    · rw [if_neg hal, lookupById_cons, ih, lookupById_cons]
      by_cases hax : a.id = x
      · have hlx : ¬ l.id = x := fun e => hal (hax.trans e.symm)
        simp [hax, hlx]
      · simp [hax]

theorem mergeRecords_eq_of_covered {a b : List TradeRecord}
    (hcov : ∀ r ∈ b, ∃ q ∈ a, q.id = r.id)
    (hsort : a.Pairwise (fun x y => y.timestamp ≤ x.timestamp)) :
    mergeRecords a b = a := by
  have hfil : b.filter (fun r => !(a.any (fun p => p.id == r.id))) = [] := by
    rw [List.filter_eq_nil_iff]
    intro r hr
    rcases hcov r hr with ⟨q, hq, hqid⟩
    simp only [Bool.not_eq_true', Bool.not_eq_false]
    exact List.any_eq_true.mpr ⟨q, hq, by simpa using hqid⟩
  unfold mergeRecords
  rw [hfil, List.append_nil]
  exact sortRecordsDesc_eq_of_sorted hsort

theorem mergeStep_eq_self {m : List Ledger} {l ex : Ledger}
    (hex : lookupById m l.id = some ex)
    (hcov : ∀ r ∈ l.records, ∃ q ∈ ex.records, q.id = r.id)
    (hsort : ex.records.Pairwise (fun x y => y.timestamp ≤ x.timestamp)) :
    mergeStep m l = m := by
  simp only [mergeStep, hex]
  rw [mergeRecords_eq_of_covered hcov hsort]
  have he : ({ex with records := ex.records} : Ledger) = ex := rfl
  rw [he]
  apply mapSet_self
  rw [(lookupById_eq_some hex).2]
  exact hex

theorem mergeStep_coveredBy_establish {acc : List Ledger} {l : Ledger}
    (hsort : l.records.Pairwise (fun x y => y.timestamp ≤ x.timestamp)) :
    coveredBy l (mergeStep acc l) := by
  unfold mergeStep
  cases hl : lookupById acc l.id with
  | none =>
    refine ⟨l, ?_, fun r hr => ⟨r, hr, rfl⟩, hsort⟩
    rw [lookupById_mapSet]
    simp
  | some ex =>
    refine ⟨{ex with records := mergeRecords ex.records l.records}, ?_,
      fun r hr => mergeRecords_covers_right r hr, sortRecordsDesc_sorted _⟩
    rw [lookupById_mapSet]
    have hid : ex.id = l.id := (lookupById_eq_some hl).2
    simp [hid]

theorem mergeStep_coveredBy_preserve {acc : List Ledger} {l l₀ : Ledger}
    (h : coveredBy l₀ acc) : coveredBy l₀ (mergeStep acc l) := by
  rcases h with ⟨ex, hex, hcov, hsort⟩
  unfold mergeStep
  cases hl : lookupById acc l.id with
  | none =>
    refine ⟨ex, ?_, hcov, hsort⟩
    rw [lookupById_mapSet]
    have hne : l.id ≠ l₀.id := by
      intro e
      rw [e, hex] at hl
      cases hl
    rw [if_neg hne]
    exact hex
  | some ex' =>
    by_cases hll : l.id = l₀.id
    · rw [hll, hex] at hl
      obtain rfl : ex = ex' := Option.some.inj hl
      refine ⟨{ex with records := mergeRecords ex.records l.records}, ?_, ?_,
        sortRecordsDesc_sorted _⟩
      · rw [lookupById_mapSet]
        have hexid : ex.id = l₀.id := (lookupById_eq_some hex).2
        simp [hexid]
      · intro r hr
        rcases hcov r hr with ⟨q, hq, hqid⟩
        exact ⟨q, mem_mergeRecords_left hq, hqid⟩
    · refine ⟨ex, ?_, hcov, hsort⟩
      rw [lookupById_mapSet]
      have hid : ex'.id = l.id := (lookupById_eq_some hl).2
      have : ({ex' with records := mergeRecords ex'.records l.records} : Ledger).id ≠ l₀.id := by
        show ex'.id ≠ l₀.id
        rw [hid]
        exact hll
      rw [if_neg this]
      exact hex

theorem foldl_mergeStep_preserve (i : List Ledger) {x : Ledger} :
    ∀ acc, coveredBy x acc → coveredBy x (i.foldl mergeStep acc) := by
  induction i with
  | nil => intro acc h; exact h
  | cons l ls ih => intro acc h; exact ih _ (mergeStep_coveredBy_preserve h)

theorem foldl_mergeStep_coveredBy (i : List Ledger)
    (hsort : ∀ l ∈ i, l.records.Pairwise (fun x y => y.timestamp ≤ x.timestamp)) :
    ∀ acc, ∀ l ∈ i, coveredBy l (i.foldl mergeStep acc) := by
  induction i with
  | nil => intro acc l hl; cases hl
  | cons w ws ih =>
    intro acc l hl
    show coveredBy l (ws.foldl mergeStep (mergeStep acc w))
    rcases List.mem_cons.mp hl with rfl | hl'
    · exact foldl_mergeStep_preserve ws _
        (mergeStep_coveredBy_establish (hsort l (List.mem_cons_self _ _)))
    · exact ih (fun l' hl'' => hsort l' (List.mem_cons_of_mem _ hl'')) _ l hl'

theorem coveredBy_of_perm {x : Ledger} {m m' : List Ledger} (hperm : m.Perm m')
    (hnd : (m.map Ledger.id).Nodup) (h : coveredBy x m) : coveredBy x m' := by
  rcases h with ⟨ex, hex, hcov, hsort⟩
  rcases lookupById_eq_some hex with ⟨hm, hid⟩
  refine ⟨ex, ?_, hcov, hsort⟩
  have hnd' : (m'.map Ledger.id).Nodup := ((hperm.map Ledger.id).nodup_iff).mp hnd
  rw [← hid]
  exact lookupById_of_nodup_mem hnd' (hperm.mem_iff.mp hm)

theorem foldl_mergeStep_eq_self {m : List Ledger} (i : List Ledger)
    (h : ∀ l ∈ i, coveredBy l m) :
    i.foldl mergeStep m = m := by
  induction i with
  | nil => rfl
  | cons l ls ih =>
    rcases h l (List.mem_cons_self _ _) with ⟨ex, hex, hcov, hsort⟩
    show ls.foldl mergeStep (mergeStep m l) = m
    rw [mergeStep_eq_self hex hcov hsort]
    exact ih fun l' hl' => h l' (List.mem_cons_of_mem _ hl')

/-! ## C3 -/

/-- C3 (counterexample): merging a ledger set with itself need not yield
an identical result: `mergeLedgers` re-sorts the ledgers ascending by
createdAt, so a set whose ledgers are not already in that order comes
back reordered (and a ledger with records not already sorted descending
comes back with its records re-sorted on the second merge). -/
theorem c3_self_merge_not_identical_cex :
    mergeLedgers [⟨"A", "A", [], 2⟩, ⟨"B", "B", [], 1⟩]
        [⟨"A", "A", [], 2⟩, ⟨"B", "B", [], 1⟩] ≠
      [⟨"A", "A", [], 2⟩, ⟨"B", "B", [], 1⟩] ∧
    mergeLedgers [⟨"A", "A", [], 2⟩, ⟨"B", "B", [], 1⟩]
        [⟨"A", "A", [], 2⟩, ⟨"B", "B", [], 1⟩] =
      [⟨"B", "B", [], 1⟩, ⟨"A", "A", [], 2⟩] := by
  refine ⟨by decide, by decide⟩

/-- C3 (amended): the merge is idempotent on canonical, normalized-form
inputs: a set with unique ledger ids, ledgers sorted ascending by
createdAt and records sorted descending by timestamp merges with itself
to exactly itself, and for any existing set, re-merging the same incoming
set (records sorted descending, as normalization produces) a second time
changes nothing. -/
theorem c3_merge_idempotent_amended :
    (∀ s : List Ledger, (s.map Ledger.id).Nodup →
      s.Pairwise (fun a b => a.createdAt ≤ b.createdAt) →
      (∀ l ∈ s, l.records.Pairwise (fun x y => y.timestamp ≤ x.timestamp)) →
      mergeLedgers s s = s) ∧
    (∀ e i : List Ledger,
      (∀ l ∈ i, l.records.Pairwise (fun x y => y.timestamp ≤ x.timestamp)) →
      mergeLedgers (mergeLedgers e i) i = mergeLedgers e i) := by
  constructor
  · intro s hnd hsorted hrec
    unfold mergeLedgers
    rw [foldl_mapSet_eq hnd]
    have hcov : ∀ l ∈ s, coveredBy l s := fun l hl =>
      ⟨l, lookupById_of_nodup_mem hnd hl, fun r hr => ⟨r, hr, rfl⟩, hrec l hl⟩
    rw [foldl_mergeStep_eq_self s hcov]
    exact sortLedgersAsc_eq_of_sorted hsorted
  · intro e i hrec
    have hndF : ((i.foldl mergeStep (e.foldl mapSet [])).map Ledger.id).Nodup :=
      foldl_mergeStep_nodup i _ (foldl_mapSet_nodup e [] (by simp))
    have hndm : ((sortLedgersAsc (i.foldl mergeStep (e.foldl mapSet []))).map
        Ledger.id).Nodup :=
      (((sortLedgersAsc_perm _).map Ledger.id).nodup_iff).mpr hndF
    have hsortm := sortLedgersAsc_sorted (i.foldl mergeStep (e.foldl mapSet []))
    have hcovm : ∀ l ∈ i,
        coveredBy l (sortLedgersAsc (i.foldl mergeStep (e.foldl mapSet []))) :=
      fun l hl => coveredBy_of_perm (sortLedgersAsc_perm _).symm hndF
        (foldl_mergeStep_coveredBy i hrec _ l hl)
    show mergeLedgers (sortLedgersAsc (i.foldl mergeStep (e.foldl mapSet []))) i =
      sortLedgersAsc (i.foldl mergeStep (e.foldl mapSet []))
    unfold mergeLedgers
    rw [foldl_mapSet_eq hndm, foldl_mergeStep_eq_self i hcovm,
      sortLedgersAsc_eq_of_sorted hsortm]

theorem c3_witness :
    (([⟨"A", "A", [], 1⟩, ⟨"B", "B", [], 2⟩] : List Ledger).map Ledger.id).Nodup ∧
    ([⟨"A", "A", [], 1⟩, ⟨"B", "B", [], 2⟩] : List Ledger).Pairwise
      (fun a b => a.createdAt ≤ b.createdAt) ∧
    (∀ l ∈ ([⟨"A", "A", [], 1⟩, ⟨"B", "B", [], 2⟩] : List Ledger),
      l.records.Pairwise (fun x y => y.timestamp ≤ x.timestamp)) ∧
    mergeLedgers [⟨"A", "A", [], 1⟩, ⟨"B", "B", [], 2⟩]
        [⟨"A", "A", [], 1⟩, ⟨"B", "B", [], 2⟩] =
      [⟨"A", "A", [], 1⟩, ⟨"B", "B", [], 2⟩] ∧
    (∀ l ∈ ([⟨"L", "L", [⟨"r2", 2, 2, 2, 2, 2, 2, 2, 2, 20⟩,
                         ⟨"r1", 1, 1, 1, 1, 1, 1, 1, 1, 10⟩], 5⟩] : List Ledger),
      l.records.Pairwise (fun x y => y.timestamp ≤ x.timestamp)) ∧
    mergeLedgers
        (mergeLedgers [] [⟨"L", "L", [⟨"r2", 2, 2, 2, 2, 2, 2, 2, 2, 20⟩,
                                      ⟨"r1", 1, 1, 1, 1, 1, 1, 1, 1, 10⟩], 5⟩])
        [⟨"L", "L", [⟨"r2", 2, 2, 2, 2, 2, 2, 2, 2, 20⟩,
                     ⟨"r1", 1, 1, 1, 1, 1, 1, 1, 1, 10⟩], 5⟩] =
      mergeLedgers [] [⟨"L", "L", [⟨"r2", 2, 2, 2, 2, 2, 2, 2, 2, 20⟩,
                                   ⟨"r1", 1, 1, 1, 1, 1, 1, 1, 1, 10⟩], 5⟩] :=
  ⟨by decide, by decide, by decide,
   c3_merge_idempotent_amended.1 [⟨"A", "A", [], 1⟩, ⟨"B", "B", [], 2⟩]
     (by decide) (by decide) (by decide),
   by decide,
   c3_merge_idempotent_amended.2 []
     [⟨"L", "L", [⟨"r2", 2, 2, 2, 2, 2, 2, 2, 2, 20⟩,
                  ⟨"r1", 1, 1, 1, 1, 1, 1, 1, 1, 10⟩], 5⟩] (by decide)⟩

/-! ## C5 machinery -/

theorem normalizeTradeRecord_toJson (r : TradeRecord) (h : r.id ≠ "") :
    normalizeTradeRecord (tradeRecordToJson r) = some r := by
  unfold normalizeTradeRecord tradeRecordToJson
  simp only [asRecordObject, getField, asString, asNumber, List.find?, Option.map_some,
    Option.bind_eq_bind, Option.some_bind, Option.bind_some]
  norm_num
  simp [h]


theorem normRecords_map_toJson :
    ∀ (rs : List TradeRecord) (seen : List String) (acc : List TradeRecord),
      (∀ r ∈ rs, r.id ≠ "" ∧ r.id ∉ seen) →
      (rs.map TradeRecord.id).Nodup →
      normRecords seen acc (rs.map tradeRecordToJson) = some (acc ++ rs) := by
  intro rs
  induction rs with
  | nil => intro seen acc _ _; simp [normRecords]
  | cons r rest ih =>
    intro seen acc h hnd
    have h0 := h r (List.mem_cons_self _ _)
    rw [List.map_cons]
    simp only [normRecords, normalizeTradeRecord_toJson r h0.1]
    have hc : seen.contains r.id = false := by
      rw [← Bool.not_eq_true]
      intro hcon
      exact h0.2 (List.elem_iff.mp hcon)
    rw [if_neg (fun hcon => h0.2 (List.elem_iff.mp hcon))]
    rw [List.map_cons, List.nodup_cons] at hnd
    rw [ih (r.id :: seen) (acc ++ [r]) ?_ hnd.2]
    · simp
    · intro x hx
      refine ⟨(h x (List.mem_cons_of_mem _ hx)).1, ?_⟩
      intro hmem
      rcases List.mem_cons.mp hmem with e | hseen
      · exact hnd.1 (e ▸ List.mem_map.mpr ⟨x, hx, rfl⟩)
      · exact (h x (List.mem_cons_of_mem _ hx)).2 hseen

theorem normalizeLedger_toJson (l : Ledger) (hid : l.id ≠ "") (hname : l.name ≠ "")
    (hrec : ∀ r ∈ l.records, r.id ≠ "")
    (hnd : (l.records.map TradeRecord.id).Nodup) :
    normalizeLedger (ledgerToJson l) =
      some ⟨l.id, l.name, sortRecordsDesc l.records, l.createdAt⟩ := by
  have e1 : getField [("id", Json.str l.id), ("name", Json.str l.name),
      ("records", Json.arr (l.records.map tradeRecordToJson)),
      ("createdAt", Json.num l.createdAt)] "id" = some (Json.str l.id) := rfl
  have e2 : getField [("id", Json.str l.id), ("name", Json.str l.name),
      ("records", Json.arr (l.records.map tradeRecordToJson)),
      ("createdAt", Json.num l.createdAt)] "name" = some (Json.str l.name) := rfl
  have e3 : getField [("id", Json.str l.id), ("name", Json.str l.name),
      ("records", Json.arr (l.records.map tradeRecordToJson)),
      ("createdAt", Json.num l.createdAt)] "createdAt" = some (Json.num l.createdAt) := rfl
  have e4 : getField [("id", Json.str l.id), ("name", Json.str l.name),
      ("records", Json.arr (l.records.map tradeRecordToJson)),
      ("createdAt", Json.num l.createdAt)] "records" =
      some (Json.arr (l.records.map tradeRecordToJson)) := rfl
  unfold normalizeLedger ledgerToJson
  simp only [asRecordObject, Option.bind_eq_bind, Option.some_bind, e1, e2, e3, e4,
    asString, asNumber, Option.bind_some]
  rw [normRecords_map_toJson l.records [] [] (fun r hr => ⟨hrec r hr, by simp⟩) hnd]
  simp [hid, hname]

theorem normLedgersLoop_map :
    ∀ L : List Ledger,
      (∀ l ∈ L, l.id ≠ "" ∧ l.name ≠ "" ∧ (∀ r ∈ l.records, r.id ≠ "") ∧
        (l.records.map TradeRecord.id).Nodup) →
      ∀ acc, normLedgersLoop (L.map ledgerToJson) acc =
        some (acc ++ L.map fun l =>
          (⟨l.id, l.name, sortRecordsDesc l.records, l.createdAt⟩ : Ledger)) := by
  intro L
  induction L with
  | nil => intro _ acc; simp [normLedgersLoop]
  | cons l ls ih =>
    intro h acc
    rcases h l (List.mem_cons_self _ _) with ⟨h1, h2, h3, h4⟩
    rw [List.map_cons]
    simp only [normLedgersLoop, normalizeLedger_toJson l h1 h2 h3 h4]
    rw [ih (fun x hx => h x (List.mem_cons_of_mem _ hx)) _]
    simp

theorem foldl_dedupeStep_eq_aux (m : List Ledger) :
    ∀ acc, ((acc ++ m).map Ledger.id).Nodup → m.foldl dedupeStep acc = acc ++ m := by
  induction m with
  | nil => intro acc _; simp
  | cons l ls ih =>
    intro acc hnd
    have hl : lookupById acc l.id = none := by
      rw [lookupById_eq_none]
      intro a ha hid
      have h2 : l.id ∈ (l :: ls).map Ledger.id := by simp
      have := (List.nodup_append.mp (by simpa using hnd)).2.2
      exact this (hid ▸ List.mem_map.mpr ⟨a, ha, rfl⟩) h2
    show ls.foldl dedupeStep (dedupeStep acc l) = acc ++ l :: ls
    simp only [dedupeStep, hl]
    rw [mapSet_append hl]
    have heq : ((acc ++ [l]) ++ ls).map Ledger.id = ((acc ++ l :: ls)).map Ledger.id := by
      simp
    rw [ih (acc ++ [l]) (by rw [heq]; exact hnd)]
    simp

theorem dedupeLedgersById_eq_of_canonical {L : List Ledger}
    (hnd : (L.map Ledger.id).Nodup)
    (hsort : L.Pairwise (fun a b => a.createdAt ≤ b.createdAt)) :
    dedupeLedgersById L = L := by
  unfold dedupeLedgersById
  rw [show L.foldl dedupeStep [] = L by
    simpa using foldl_dedupeStep_eq_aux L [] (by simpa using hnd)]
  exact sortLedgersAsc_eq_of_sorted hsort

/-- C5 (amended): export/import round-trip holds for well-formed ledger
sets: if every ledger has non-empty id and name, non-empty record ids,
per-ledger unique record ids, the ledger ids are unique and the ledgers
are sorted ascending by createdAt, then normalizing the serialized "all
data" envelope returns exactly the input ledgers (each ledger's records
in canonical descending-timestamp order) together with the exported
activeLedgerId, lang and theme. -/
theorem c5_roundtrip_amended (L : List Ledger) (aid lang theme ts : String)
    (h1 : ∀ l ∈ L, l.id ≠ "" ∧ l.name ≠ "" ∧ (∀ r ∈ l.records, r.id ≠ "") ∧
      (l.records.map TradeRecord.id).Nodup)
    (h2 : (L.map Ledger.id).Nodup)
    (h3 : L.Pairwise (fun a b => a.createdAt ≤ b.createdAt))
    (hlang : lang = "en" ∨ lang = "zh")
    (htheme : theme = "light" ∨ theme = "dark") :
    normalizeAllImport (exportAllEnvelope L aid lang theme ts) =
      some ⟨L.map fun l =>
              (⟨l.id, l.name, sortRecordsDesc l.records, l.createdAt⟩ : Ledger),
            some aid, some lang, some theme⟩ := by
  have henv : isAllEnvelope [("schema", Json.str "auragold.export"),
      ("version", Json.num 1), ("kind", Json.str "all"), ("exportedAt", Json.str ts),
      ("payload", Json.obj [("ledgers", Json.arr (L.map ledgerToJson)),
        ("activeLedgerId", Json.str aid), ("lang", Json.str lang),
        ("theme", Json.str theme)])] = true := rfl
  have epay : getField [("schema", Json.str "auragold.export"),
      ("version", Json.num 1), ("kind", Json.str "all"), ("exportedAt", Json.str ts),
      ("payload", Json.obj [("ledgers", Json.arr (L.map ledgerToJson)),
        ("activeLedgerId", Json.str aid), ("lang", Json.str lang),
        ("theme", Json.str theme)])] "payload" =
      some (Json.obj [("ledgers", Json.arr (L.map ledgerToJson)),
        ("activeLedgerId", Json.str aid), ("lang", Json.str lang),
        ("theme", Json.str theme)]) := rfl
  have eled : getField [("ledgers", Json.arr (L.map ledgerToJson)),
      ("activeLedgerId", Json.str aid), ("lang", Json.str lang),
      ("theme", Json.str theme)] "ledgers" = some (Json.arr (L.map ledgerToJson)) := rfl
  have eaid : getField [("ledgers", Json.arr (L.map ledgerToJson)),
      ("activeLedgerId", Json.str aid), ("lang", Json.str lang),
      ("theme", Json.str theme)] "activeLedgerId" = some (Json.str aid) := rfl
  have elang : getField [("ledgers", Json.arr (L.map ledgerToJson)),
      ("activeLedgerId", Json.str aid), ("lang", Json.str lang),
      ("theme", Json.str theme)] "lang" = some (Json.str lang) := rfl
  have etheme : getField [("ledgers", Json.arr (L.map ledgerToJson)),
      ("activeLedgerId", Json.str aid), ("lang", Json.str lang),
      ("theme", Json.str theme)] "theme" = some (Json.str theme) := rfl
  have hnd2 : ((L.map fun l =>
      (⟨l.id, l.name, sortRecordsDesc l.records, l.createdAt⟩ : Ledger)).map
        Ledger.id).Nodup := by
    rw [List.map_map]
    exact h2
  have hsort2 : (L.map fun l =>
      (⟨l.id, l.name, sortRecordsDesc l.records, l.createdAt⟩ : Ledger)).Pairwise
        (fun a b => a.createdAt ≤ b.createdAt) :=
    List.pairwise_map.mpr h3
  unfold normalizeAllImport exportAllEnvelope
  simp only [asRecordObject, henv, if_true, epay, Option.bind_eq_bind, Option.some_bind,
    eled, eaid, elang, etheme, asString]
  rw [normLedgersLoop_map L h1 []]
  simp only [List.nil_append]
  rw [dedupeLedgersById_eq_of_canonical hnd2 hsort2]
  rcases hlang with rfl | rfl <;> rcases htheme with rfl | rfl <;> simp

/-- C5 (counterexample): the round-trip does not hold for every
in-memory ledger set: a ledger whose name is the empty string serializes
fine but is rejected on import (`!name` in `normalizeLedger`), so the
whole import of its envelope yields absent instead of the original set. -/
theorem c5_roundtrip_cex :
    normalizeAllImport (exportAllEnvelope [⟨"L1", "", [], 0⟩] "L1" "en" "light" "t") =
      none ∧
    (none : Option AllImportResult) ≠
      some ⟨[⟨"L1", "", [], 0⟩], some "L1", some "en", some "light"⟩ := by
  refine ⟨by decide, by decide⟩

theorem c5_witness :
    (∀ l ∈ ([⟨"a", "A", [⟨"r", 1, 2, 3, 4, 5, 6, 7, 8, 5⟩,
                          ⟨"q", 1, 2, 3, 4, 5, 6, 7, 8, 9⟩], 0⟩] : List Ledger),
      l.id ≠ "" ∧ l.name ≠ "" ∧ (∀ r ∈ l.records, r.id ≠ "") ∧
      (l.records.map TradeRecord.id).Nodup) ∧
    (([⟨"a", "A", [⟨"r", 1, 2, 3, 4, 5, 6, 7, 8, 5⟩,
                   ⟨"q", 1, 2, 3, 4, 5, 6, 7, 8, 9⟩], 0⟩] : List Ledger).map
      Ledger.id).Nodup ∧
    ([⟨"a", "A", [⟨"r", 1, 2, 3, 4, 5, 6, 7, 8, 5⟩,
                  ⟨"q", 1, 2, 3, 4, 5, 6, 7, 8, 9⟩], 0⟩] : List Ledger).Pairwise
      (fun a b => a.createdAt ≤ b.createdAt) ∧
    (("en" : String) = "en" ∨ ("en" : String) = "zh") ∧
    (("dark" : String) = "light" ∨ ("dark" : String) = "dark") ∧
    normalizeAllImport (exportAllEnvelope
        [⟨"a", "A", [⟨"r", 1, 2, 3, 4, 5, 6, 7, 8, 5⟩,
                     ⟨"q", 1, 2, 3, 4, 5, 6, 7, 8, 9⟩], 0⟩] "x" "en" "dark" "ts") =
      some ⟨[⟨"a", "A", [⟨"q", 1, 2, 3, 4, 5, 6, 7, 8, 9⟩,
                         ⟨"r", 1, 2, 3, 4, 5, 6, 7, 8, 5⟩], 0⟩],
            some "x", some "en", some "dark"⟩ :=
  ⟨by decide, by decide, by decide, by decide, by decide,
   (c5_roundtrip_amended
     [⟨"a", "A", [⟨"r", 1, 2, 3, 4, 5, 6, 7, 8, 5⟩,
                  ⟨"q", 1, 2, 3, 4, 5, 6, 7, 8, 9⟩], 0⟩] "x" "en" "dark" "ts"
     (by decide) (by decide) (by decide) (by decide) (by decide)).trans (by decide)⟩

/-! ## C9 machinery -/

theorem replaceRunsAux_eq_spec (p : Char → Bool) (r : Char) :
    ∀ (cs : List Char) (c : Char),
      replaceRunsAux p r (p c) cs =
        (cs.zip (some c :: cs.map some)).filterMap fun cp =>
          if p cp.1 then
            if cp.2.elim true (fun d => !p d) then some r else none
          else some cp.1 := by
  intro cs
  induction cs with
  | nil => intro c; rfl
  | cons d ds ih =>
    intro c
    have hih := ih d
    rw [List.map_cons, List.zip_cons_cons, List.filterMap_cons]
    simp only [replaceRunsAux]
    cases hpd : p d with
    | true =>
      rw [hpd] at hih
      cases hpc : p c with
      | true => simp [hih, hpc]
      | false => simp [hih, hpc]
    | false =>
      rw [hpd] at hih
      simp [hih, hpd]

theorem replaceRuns_eq_collapseRunsSpec (p : Char → Bool) (r : Char) (l : List Char) :
    replaceRuns p r l = collapseRunsSpec p r l := by
  cases l with
  | nil => rfl
  | cons c cs =>
    unfold replaceRuns collapseRunsSpec
    rw [List.map_cons, List.zip_cons_cons, List.filterMap_cons]
    simp only [replaceRunsAux]
    have hih := replaceRunsAux_eq_spec p r cs c
    cases hpc : p c with
    | true =>
      rw [hpc] at hih
      simp [hih]
    | false =>
      rw [hpc] at hih
      simp [hih, hpc]

/-! ## C9 -/

/-- C9 (counterexample): the sanitizer does not *strip* the forbidden
characters: it replaces each run of them with a single hyphen, so
`safeFilename "a/b"` is `"a-b"`, not the `"ab"` that stripping (as the
claim states it, formalized by `safeFilenameSpecStrip`) would produce. -/
theorem c9_strip_cex :
    safeFilename "a/b" = "a-b" ∧ safeFilenameSpecStrip "a/b" = "ab" ∧
    safeFilename "a/b" ≠ safeFilenameSpecStrip "a/b" := by
  refine ⟨by decide, by decide, by decide⟩

/-- C9 (amended): for every input string the sanitizer replaces each
maximal run of the characters backslash / : * ? quote < > | with a single
hyphen, collapses each whitespace run to a single space, trims, truncates
to at most 80 characters, and returns the fixed default "auragold" when
the result is empty — i.e. `safeFilename` coincides with the declarative
specification `safeFilenameSpecAmended`. -/
theorem c9_sanitize_amended (s : String) : safeFilename s = safeFilenameSpecAmended s := by
  unfold safeFilename safeFilenameSpecAmended
  rw [replaceRuns_eq_collapseRunsSpec, replaceRuns_eq_collapseRunsSpec]
